import Mathlib

/-!
Verification of the Verilator testbench harness `src/tb/tb_top.cpp` for the
conv3x3 accelerator.  Every definition below is a shallow embedding of a
concrete piece of that C++ file (line references in the doc comments); the
compute unit itself is opaque, so unit-driven signals (`ready`, `outValid`,
`outLast`, `done`, `errorCode`) appear as parameters or boolean traces.
-/

namespace Conv3x3TB

/-! ## Harness configuration constants (tb_top.cpp lines 82-101, 121-122, 159-160, 197-199) -/

/-- Spatial width (`int W = 8`, line 82). -/
def W : Nat := 8
/-- Spatial height (`int H = 8`, line 82). -/
def H : Nat := 8
/-- Input channels (`int IC = 16`, line 82). -/
def IC : Nat := 16
/-- Output channels (`int OC = 16`, line 82). -/
def OC : Nat := 16
/-- Stride code (`int stride = 0`, meaning stride 1, line 83). -/
def stride : Nat := 0
/-- Activation bit width (line 84). -/
def act_bits : Nat := 2
/-- Weight bit width (line 84). -/
def wgt_bits : Nat := 2
/-- Output height, `(H - 3) / (stride + 1) + 1` (line 85). -/
def OH : Nat := (H - 3) / (stride + 1) + 1
/-- Output width, `(W - 3) / (stride + 1) + 1` (line 86). -/
def OW : Nat := (W - 3) / (stride + 1) + 1
/-- Total weight elements, `OC * IC * 9` (line 121). -/
def wgt_elements : Nat := OC * IC * 9
/-- Weight beats, `(wgt_elements * wgt_bits + 127) / 128` (line 122). -/
def wgt_beats : Nat := (wgt_elements * wgt_bits + 127) / 128
/-- Total activation elements, `H * W * IC` (line 159). -/
def act_elements : Nat := H * W * IC
/-- Activation beats, `(act_elements * act_bits + 127) / 128` (line 160). -/
def act_beats : Nat := (act_elements * act_bits + 127) / 128
/-- Target output elements, `OH * OW * OC` (line 198). -/
def out_elements : Nat := OH * OW * OC
/-- Output-phase cycle budget (`int max_cycles = 100000`, line 199). -/
def max_cycles : Nat := 100000
/-- Lanes per beat: the data bus is 4 x 32-bit words (lines 66-69, 133). -/
def laneCount : Nat := 4
/-- Element width in bits for the concrete harness layout (2-bit values). -/
def elementWidth : Nat := 2
/-- `out_ready` is initialized to 1 (line 63) and never reassigned. -/
def out_ready : Bool := true

/-! ## Beat packing (tb_top.cpp lines 133-141 / 169-177)

The inner loop `for (j = 0; j < 16 && sent < N; j++) word |= v << (j*2)`
is embedded as `packWordGo` with `fuel = 16 - j`; `elems : Nat → Nat` is the
stream of (pre-mask) element values, masked with `&&& 3` exactly as the
source masks `rand() & 0x3`. -/

/-- One execution of the inner `j` loop body chain: `fuel` counts the
remaining `j` iterations, `j` is the current bit-slot index, `sent` the
elements-sent counter.  Returns the packed 32-bit word and updated counter. -/
def packWordGo (elems : Nat → Nat) (N : Nat) : Nat → Nat → Nat → Nat × Nat
  | 0, _, sent => (0, sent)
  | fuel+1, j, sent =>
    if sent < N then
      let r := packWordGo elems N fuel (j+1) (sent+1)
      (((elems sent &&& 3) <<< (j*2)) ||| r.1, r.2)
    else (0, sent)

/-- One full 32-bit word of up to 16 two-bit elements (lines 134-139). -/
def packWord (elems : Nat → Nat) (N sent : Nat) : Nat × Nat :=
  packWordGo elems N 16 0 sent

/-- One 128-bit beat: the `for (i = 0; i < 4; i++)` loop of lines 133-141,
producing the four words `wgt_in_data[0..3]` and the updated counter. -/
def packBeat (elems : Nat → Nat) (N sent : Nat) : List Nat × Nat :=
  let r0 := packWord elems N sent
  let r1 := packWord elems N r0.2
  let r2 := packWord elems N r1.2
  let r3 := packWord elems N r2.2
  ([r0.1, r1.1, r2.1, r3.1], r3.2)

/-! ### Counter-advance lemmas -/

theorem packWordGo_snd (elems : Nat → Nat) (N : Nat) :
    ∀ fuel j sent, (packWordGo elems N fuel j sent).2 = sent + min fuel (N - sent) := by
  intro fuel
  induction fuel with
  | zero => intro j sent; simp [packWordGo]
  | succ f ih =>
    intro j sent
    by_cases h : sent < N
    · simp only [packWordGo, if_pos h, ih]
      omega
    · simp only [packWordGo, if_neg h]
      omega

theorem packWord_snd (elems : Nat → Nat) (N sent : Nat) :
    (packWord elems N sent).2 = sent + min 16 (N - sent) := by
  simp [packWord, packWordGo_snd]

theorem packBeat_snd (elems : Nat → Nat) (N sent : Nat) :
    (packBeat elems N sent).2 = sent + min 64 (N - sent) := by
  simp only [packBeat, packWord_snd]
  omega

/-! ### Bit-layout lemmas: which lane and offset each element occupies -/

theorem shift2_and3 (x k : Nat) : (x >>> (k * 2)) &&& 3 = x / 2 ^ (2 * k) % 4 := by
  have h1 : (x >>> (k * 2)) &&& 3 = (x >>> (k * 2)) % 4 := by
    have h := Nat.and_pow_two_sub_one_eq_mod (x >>> (k * 2)) 2
    norm_num at h
    exact h
  rw [h1, Nat.shiftRight_eq_div_pow, mul_comm]

theorem elem_shift (e j : Nat) : e <<< (j * 2) = e * 2 ^ (2 * j) := by
  rw [Nat.shiftLeft_eq, mul_comm j 2]

theorem packWordGo_shape (elems : Nat → Nat) (N : Nat) :
    ∀ fuel j sent, ∃ c, (packWordGo elems N fuel j sent).1 = 2 ^ (2 * j) * c ∧
      c < 2 ^ (2 * fuel) := by
  intro fuel
  induction fuel with
  | zero => intro j sent; exact ⟨0, by simp [packWordGo], by norm_num⟩
  | succ f ih =>
    intro j sent
    by_cases h : sent < N
    · obtain ⟨c, hc, hlt⟩ := ih (j+1) (sent+1)
      have he : (elems sent &&& 3) < 4 :=
        lt_of_le_of_lt Nat.and_le_right (by norm_num)
      have hp : 0 < (2:Nat) ^ (2 * j) := Nat.pow_pos (by norm_num)
      refine ⟨4 * c + (elems sent &&& 3), ?_, ?_⟩
      · simp only [packWordGo, if_pos h]
        rw [hc, elem_shift]
        have hb : (elems sent &&& 3) * 2 ^ (2 * j) < 2 ^ (2 * (j+1)) := by
          calc (elems sent &&& 3) * 2 ^ (2 * j) < 4 * 2 ^ (2 * j) :=
                mul_lt_mul_of_pos_right he hp
            _ ≤ 2 ^ (2 * (j+1)) := by rw [Nat.mul_succ, pow_add]; omega
        rw [Nat.lor_comm, ← Nat.mul_add_lt_is_or hb c]
        have h2 : (2:Nat) ^ (2 * (j+1)) = 2 ^ (2 * j) * 4 := by
          rw [Nat.mul_succ, pow_add]; norm_num
        rw [h2]; ring
      · have h2 : (2:Nat) ^ (2 * (f+1)) = 4 * 2 ^ (2 * f) := by
          rw [Nat.mul_succ, pow_add]; ring
        omega
    · exact ⟨0, by simp [packWordGo, if_neg h], by norm_num⟩

theorem packWordGo_extract (elems : Nat → Nat) (N : Nat) :
    ∀ fuel j sent q, q < fuel → sent + q < N →
      ((packWordGo elems N fuel j sent).1 >>> ((j + q) * 2)) &&& 3 =
        elems (sent + q) &&& 3 := by
  intro fuel
  induction fuel with
  | zero => intro j sent q hq; omega
  | succ f ih =>
    intro j sent q hq hN
    have h : sent < N := by omega
    obtain ⟨c, hc, hlt⟩ := packWordGo_shape elems N f (j+1) (sent+1)
    have he : (elems sent &&& 3) < 4 :=
      lt_of_le_of_lt Nat.and_le_right (by norm_num)
    have hp : 0 < (2:Nat) ^ (2 * j) := Nat.pow_pos (by norm_num)
    have hb : (elems sent &&& 3) * 2 ^ (2 * j) < 2 ^ (2 * (j+1)) := by
      calc (elems sent &&& 3) * 2 ^ (2 * j) < 4 * 2 ^ (2 * j) :=
            mul_lt_mul_of_pos_right he hp
        _ ≤ 2 ^ (2 * (j+1)) := by rw [Nat.mul_succ, pow_add]; omega
    have hword : (packWordGo elems N (f+1) j sent).1 =
        (elems sent &&& 3) * 2 ^ (2 * j) + 2 ^ (2 * (j+1)) * c := by
      simp only [packWordGo, if_pos h]
      rw [hc, elem_shift, Nat.lor_comm, ← Nat.mul_add_lt_is_or hb c]
      ring
    cases q with
    | zero =>
      simp only [Nat.add_zero]
      rw [shift2_and3, hword]
      have h2 : (2:Nat) ^ (2 * (j+1)) = 2 ^ (2 * j) * 4 := by
        rw [Nat.mul_succ, pow_add]; norm_num
      have hrw : (elems sent &&& 3) * 2 ^ (2 * j) + 2 ^ (2 * (j+1)) * c =
          2 ^ (2 * j) * ((elems sent &&& 3) + 4 * c) := by rw [h2]; ring
      rw [hrw, Nat.mul_div_cancel_left _ hp,
        Nat.add_mul_mod_self_left, Nat.mod_eq_of_lt he]
    | succ q' =>
      have ih' := ih (j+1) (sent+1) q' (by omega) (by omega)
      rw [shift2_and3] at ih' ⊢
      have hp1 : 0 < (2:Nat) ^ (2 * (j+1)) := Nat.pow_pos (by norm_num)
      have hdivw : (packWordGo elems N (f+1) j sent).1 / 2 ^ (2 * (j+1)) = c := by
        rw [hword, Nat.add_mul_div_left _ _ hp1, Nat.div_eq_of_lt hb, Nat.zero_add]
      have hdivr : (packWordGo elems N f (j+1) (sent+1)).1 / 2 ^ (2 * (j+1)) = c := by
        rw [hc, Nat.mul_div_cancel_left _ hp1]
      have hsplit : ∀ x : Nat, x / 2 ^ (2 * (j + (q'+1))) = x / 2 ^ (2 * (j+1)) / 2 ^ (2 * q') := by
        intro x
        rw [Nat.div_div_eq_div_mul, ← pow_add]
        congr 2
        omega
      have hsplit' : ∀ x : Nat, x / 2 ^ (2 * ((j+1) + q')) = x / 2 ^ (2 * (j+1)) / 2 ^ (2 * q') := by
        intro x
        rw [Nat.div_div_eq_div_mul, ← pow_add]
        congr 2
        omega
      rw [hsplit, hdivw]
      rw [hsplit', hdivr] at ih'
      have harg : sent + 1 + q' = sent + (q' + 1) := by omega
      rw [harg] at ih'
      exact ih'

theorem packWord_extract (elems : Nat → Nat) (N sent q : Nat)
    (hq : q < 16) (hN : sent + q < N) :
    ((packWord elems N sent).1 >>> (q * 2)) &&& 3 = elems (sent + q) &&& 3 := by
  have h := packWordGo_extract elems N 16 0 sent q hq hN
  simpa using h

/-- Element stream used as a concrete counterexample input: element 1 has
value 3, every other element is 0. -/
def elemsCE : Nat → Nat := fun i => if i = 1 then 3 else 0

/-- C1: the claim's lane-major formula fails on the code.  For the harness
layout (`laneCount = 4`, `elementWidth = 2`) the claim places element 1 in
lane `1 % 4 = 1` at bit offset `(1 / 4) * 2 = 0`, but the packing loop of
tb_top.cpp lines 133-141 puts element 1 in lane 0 at bit offset 2, so the
two low bits of lane 1 do not hold element 1's value. -/
theorem pack_lane_major_claim_false :
    ¬ ((((packBeat elemsCE 64 0).1.getD (1 % laneCount) 0) >>>
          ((1 / laneCount) * elementWidth)) &&& 3 = elemsCE 1 &&& 3) := by
  decide

/-- C1 (amended): element `p` of a beat occupies lane `p / 16` at bit offset
`(p % 16) * elementWidth` — elements fill a lane low-to-high, then move to
the next lane, in strict stream order, exactly the §3 invariant. -/
theorem pack_element_position (elems : Nat → Nat) (N sent p : Nat)
    (hp : p < 64) (hs : sent + p < N) :
    (((packBeat elems N sent).1.getD (p / 16) 0) >>> ((p % 16) * 2)) &&& 3 =
      elems (sent + p) &&& 3 := by
  have hcase : p / 16 = 0 ∨ p / 16 = 1 ∨ p / 16 = 2 ∨ p / 16 = 3 := by omega
  rcases hcase with h16 | h16 | h16 | h16
  · have hidx : (packBeat elems N sent).1.getD (p / 16) 0 =
        (packWord elems N sent).1 := by rw [h16]; rfl
    rw [hidx]
    have harg : sent + p % 16 = sent + p := by omega
    have h := packWord_extract elems N sent (p % 16) (by omega) (by omega)
    rwa [harg] at h
  · have e1 : (packWord elems N sent).2 = sent + 16 := by
      rw [packWord_snd]; omega
    have hidx : (packBeat elems N sent).1.getD (p / 16) 0 =
        (packWord elems N (sent + 16)).1 := by
      rw [h16]
      show (packWord elems N ((packWord elems N sent).2)).1 = _
      rw [e1]
    rw [hidx]
    have harg : sent + 16 + p % 16 = sent + p := by omega
    have h := packWord_extract elems N (sent + 16) (p % 16) (by omega) (by omega)
    rwa [harg] at h
  · have e1 : (packWord elems N sent).2 = sent + 16 := by
      rw [packWord_snd]; omega
    have e2 : (packWord elems N (sent + 16)).2 = sent + 32 := by
      rw [packWord_snd]; omega
    have hidx : (packBeat elems N sent).1.getD (p / 16) 0 =
        (packWord elems N (sent + 32)).1 := by
      rw [h16]
      show (packWord elems N ((packWord elems N ((packWord elems N sent).2)).2)).1 = _
      rw [e1, e2]
    rw [hidx]
    have harg : sent + 32 + p % 16 = sent + p := by omega
    have h := packWord_extract elems N (sent + 32) (p % 16) (by omega) (by omega)
    rwa [harg] at h
  · have e1 : (packWord elems N sent).2 = sent + 16 := by
      rw [packWord_snd]; omega
    have e2 : (packWord elems N (sent + 16)).2 = sent + 32 := by
      rw [packWord_snd]; omega
    have e3 : (packWord elems N (sent + 32)).2 = sent + 48 := by
      rw [packWord_snd]; omega
    have hidx : (packBeat elems N sent).1.getD (p / 16) 0 =
        (packWord elems N (sent + 48)).1 := by
      rw [h16]
      show (packWord elems N
        ((packWord elems N ((packWord elems N ((packWord elems N sent).2)).2)).2)).1 = _
      rw [e1, e2, e3]
    rw [hidx]
    have harg : sent + 48 + p % 16 = sent + p := by omega
    have h := packWord_extract elems N (sent + 48) (p % 16) (by omega) (by omega)
    rwa [harg] at h

/-- C1 witness: the amended layout theorem evaluated at the concrete stream
`elemsCE`, beat start 0, element 17 (lane 1, bit offset 2). -/
theorem pack_element_position_witness :
    17 < 64 ∧ 0 + 17 < 64 ∧
      (((packBeat elemsCE 64 0).1.getD (17 / 16) 0) >>> ((17 % 16) * 2)) &&& 3 =
        elemsCE (0 + 17) &&& 3 :=
  ⟨by decide, by decide, pack_element_position elemsCE 64 0 17 (by decide) (by decide)⟩

/-! ## The beat stream produced by a load loop (tb_top.cpp lines 129-154, 166-190)

With `ready` asserted every cycle, each iteration of
`while (sent < N) { pack beat; last = (sent >= N); beat_count++; }` produces
one beat.  `driveBeats` returns the produced beats paired with their `last`
flags; `fuel` bounds the iteration count (any `fuel` with `N ≤ 64 * fuel`
lets the loop run to completion). -/

def driveBeats (elems : Nat → Nat) (N : Nat) : Nat → Nat → List (List Nat × Bool)
  | 0, _ => []
  | fuel+1, sent =>
    if sent < N then
      let r := packBeat elems N sent
      (r.1, decide (N ≤ r.2)) :: driveBeats elems N fuel r.2
    else []

theorem driveBeats_nil (elems : Nat → Nat) (N : Nat) (fuel sent : Nat)
    (h : N ≤ sent) : driveBeats elems N fuel sent = [] := by
  cases fuel with
  | zero => rfl
  | succ f => simp [driveBeats, Nat.not_lt.mpr h]

theorem driveBeats_length (elems : Nat → Nat) (N : Nat) :
    ∀ fuel sent, N ≤ sent + 64 * fuel →
      (driveBeats elems N fuel sent).length = (N - sent + 63) / 64 := by
  intro fuel
  induction fuel with
  | zero => intro sent h; simp [driveBeats]; omega
  | succ f ih =>
    intro sent h
    by_cases hlt : sent < N
    · simp only [driveBeats, if_pos hlt, List.length_cons]
      rw [ih (packBeat elems N sent).2 (by rw [packBeat_snd]; omega)]
      rw [packBeat_snd]
      omega
    · simp only [driveBeats, if_neg hlt, List.length_nil]
      omega

/-- The sequence of `last` flags produced by a load loop: `false` on every
beat except the final one. -/
theorem driveBeats_flags (elems : Nat → Nat) (N : Nat) :
    ∀ fuel sent, N ≤ sent + 64 * fuel → sent < N →
      (driveBeats elems N fuel sent).map (fun b => b.2) =
        List.replicate ((N - sent + 63) / 64 - 1) false ++ [true] := by
  intro fuel
  induction fuel with
  | zero => intro sent h hlt; omega
  | succ f ih =>
    intro sent h hlt
    simp only [driveBeats, if_pos hlt, List.map_cons]
    by_cases hfin : N ≤ sent + 64
    · have hsnd : (packBeat elems N sent).2 = N := by rw [packBeat_snd]; omega
      rw [hsnd, driveBeats_nil elems N f N (le_refl N)]
      have hone : (N - sent + 63) / 64 - 1 = 0 := by omega
      simp [hone, hsnd]
    · have hsnd : (packBeat elems N sent).2 = sent + 64 := by rw [packBeat_snd]; omega
      rw [hsnd]
      rw [ih (sent + 64) (by omega) (by omega)]
      have hflag : decide (N ≤ sent + 64) = false := by simp; omega
      rw [hflag]
      have hcount : (N - sent + 63) / 64 - 1 = ((N - (sent + 64) + 63) / 64 - 1) + 1 := by
        omega
      rw [hcount, List.replicate_succ]
      simp

/-! ## C2: scenario sizes and beat counts -/

/-- C2: for the configuration `W=8, H=8, IC=16, OC=16, stride=1, actBits=2,
wgtBits=2` the harness computes 2304 weight elements in 36 beats, 1024
activation elements in 16 beats and a 576-element output target; and with
`ready` asserted on every cycle the weight loop produces exactly 36 beats
and the activation loop exactly 16. -/
theorem scenario_counts :
    wgt_elements = 2304 ∧ wgt_beats = 36 ∧ act_elements = 1024 ∧ act_beats = 16 ∧
      out_elements = 576 ∧
      (∀ (elems : Nat → Nat) (fuel : Nat), 36 ≤ fuel →
        (driveBeats elems wgt_elements fuel 0).length = 36) ∧
      (∀ (elems : Nat → Nat) (fuel : Nat), 16 ≤ fuel →
        (driveBeats elems act_elements fuel 0).length = 16) := by
  have hw : wgt_elements = 2304 := by decide
  have ha : act_elements = 1024 := by decide
  refine ⟨hw, by decide, ha, by decide, by decide, ?_, ?_⟩
  · intro elems fuel hf
    rw [driveBeats_length elems wgt_elements fuel 0 (by omega)]
    omega
  · intro elems fuel hf
    rw [driveBeats_length elems act_elements fuel 0 (by omega)]
    omega

/-- C2 witness: the weight loop at fuel 36 with the all-zero stream. -/
theorem scenario_counts_witness :
    36 ≤ 36 ∧ (driveBeats (fun _ => 0) wgt_elements 36 0).length = 36 :=
  ⟨le_refl 36, scenario_counts.2.2.2.2.2.1 (fun _ => 0) 36 (le_refl 36)⟩

/-! ## C4: exactly one last-flagged beat -/

/-- C4: for every stream of `N > 0` elements, exactly one produced beat has
the `last` flag set — the final beat, index `(N-1)/64`, which starts at
element `64*((N-1)/64) ≤ N-1` and consumes the stream through element `N-1`
(its final counter is `N`). -/
theorem last_beat_flagging (elems : Nat → Nat) (N fuel : Nat)
    (hN : 0 < N) (hfuel : N ≤ 64 * fuel) :
    (driveBeats elems N fuel 0).map (fun b => b.2) =
        List.replicate ((N - 1) / 64) false ++ [true] ∧
      (driveBeats elems N fuel 0).length = (N + 63) / 64 ∧
      (N - 1) / 64 = (N + 63) / 64 - 1 ∧
      64 * ((N - 1) / 64) ≤ N - 1 ∧
      (packBeat elems N (64 * ((N - 1) / 64))).2 = N := by
  refine ⟨?_, ?_, by omega, by omega, ?_⟩
  · rw [driveBeats_flags elems N fuel 0 (by omega) hN]
    have hc : (N - 0 + 63) / 64 - 1 = (N - 1) / 64 := by omega
    rw [hc]
  · rw [driveBeats_length elems N fuel 0 (by omega)]
    omega
  · rw [packBeat_snd]
    omega

/-- C4 witness: a 100-element stream in two beats; the flag sequence is
`[false, true]` and the flagged beat starts at element 64 and ends at 100. -/
theorem last_beat_flagging_witness :
    0 < 100 ∧ 100 ≤ 64 * 2 ∧
      ((driveBeats (fun _ => 1) 100 2 0).map (fun b => b.2) =
          List.replicate ((100 - 1) / 64) false ++ [true] ∧
        (driveBeats (fun _ => 1) 100 2 0).length = (100 + 63) / 64 ∧
        (100 - 1) / 64 = (100 + 63) / 64 - 1 ∧
        64 * ((100 - 1) / 64) ≤ 100 - 1 ∧
        (packBeat (fun _ => 1) 100 (64 * ((100 - 1) / 64))).2 = 100) :=
  ⟨by decide, by decide, last_beat_flagging (fun _ => 1) 100 2 (by decide) (by decide)⟩

/-! ## Output-collection loop (tb_top.cpp lines 197-222)

One loop iteration toggles the clock, increments `cycles`, then reads the
unit's post-edge signals: on `out_valid && out_ready` it credits 4 elements
and breaks on `out_last`; it also breaks on `done`.  The unit's responses
are boolean traces indexed by the iteration number. -/

/-- One iteration body of the output loop.  Returns
`(cycles', received', break?)`. -/
def outIter (ov ol dn : Bool) (cycles received : Nat) : Nat × Nat × Bool :=
  let c := cycles + 1
  if ov && out_ready then
    let r := received + 4
    if ol then (c, r, true)
    else if dn then (c, r, true)
    else (c, r, false)
  else if dn then (c, received, true)
  else (c, received, false)

/-- The output-collection `while` loop.  `fuel` bounds the iterations (any
`fuel ≥ maxCycles` lets the loop run to its own exit).  Returns the final
`(cycles, out_received)`. -/
def outLoopGo (ov ol dn : Nat → Bool) (outElems maxCycles : Nat) :
    Nat → Nat → Nat → Nat × Nat
  | 0, cycles, received => (cycles, received)
  | fuel+1, cycles, received =>
    if cycles < maxCycles ∧ received < outElems then
      let r := outIter (ov cycles) (ol cycles) (dn cycles) cycles received
      if r.2.2 then (r.1, r.2.1)
      else outLoopGo ov ol dn outElems maxCycles fuel r.1 r.2.1
    else (cycles, received)

theorem outIter_received (ov ol dn : Bool) (cycles received : Nat) :
    (outIter ov ol dn cycles received).2.1 =
      if ov = true then received + 4 else received := by
  cases ov <;> cases ol <;> cases dn <;> simp [outIter, out_ready]

theorem outIter_cycles (ov ol dn : Bool) (cycles received : Nat) :
    (outIter ov ol dn cycles received).1 = cycles + 1 := by
  cases ov <;> cases ol <;> cases dn <;> simp [outIter, out_ready]

/-- With a unit that never asserts `outValid` or `done`, every iteration
only advances the cycle counter, and the loop runs to the budget. -/
theorem outLoopGo_silent (outElems maxCycles : Nat) :
    ∀ fuel cycles received, maxCycles ≤ cycles + fuel → cycles ≤ maxCycles →
      received < outElems →
      outLoopGo (fun _ => false) (fun _ => false) (fun _ => false)
        outElems maxCycles fuel cycles received = (maxCycles, received) := by
  intro fuel
  induction fuel with
  | zero =>
    intro cycles received h hc hr
    have : cycles = maxCycles := by omega
    simp [outLoopGo, this]
  | succ f ih =>
    intro cycles received h hc hr
    by_cases hlt : cycles < maxCycles
    · simp only [outLoopGo, if_pos (And.intro hlt hr)]
      have hit : outIter false false false cycles received = (cycles + 1, received, false) := by
        simp [outIter, out_ready]
      rw [hit]
      exact ih (cycles + 1) received (by omega) (by omega) hr
    · have : cycles = maxCycles := by omega
      simp [outLoopGo, hlt, this]

/-- C3: if the unit never asserts `outValid` and never asserts `done`, the
output-collection loop exits after exactly `max_cycles = 100000` steps with
the target not reached (0 of 576 elements received). -/
theorem budget_timeout (fuel : Nat) (hf : max_cycles ≤ fuel) :
    outLoopGo (fun _ => false) (fun _ => false) (fun _ => false)
        out_elements max_cycles fuel 0 0 = (max_cycles, 0) ∧
      max_cycles = 100000 ∧ (0:Nat) < out_elements := by
  refine ⟨?_, by decide, by decide⟩
  exact outLoopGo_silent out_elements max_cycles fuel 0 0 (by omega)
    (Nat.zero_le _) (by decide)

/-- C3 witness: fuel exactly the budget. -/
theorem budget_timeout_witness :
    max_cycles ≤ 100000 ∧
      (outLoopGo (fun _ => false) (fun _ => false) (fun _ => false)
          out_elements max_cycles 100000 0 0 = (max_cycles, 0) ∧
        max_cycles = 100000 ∧ (0:Nat) < out_elements) :=
  ⟨by decide, budget_timeout 100000 (by decide)⟩

/-- The loop invariant behind C9: `received` never exceeds the target plus 3. -/
theorem outLoopGo_received_le (ov ol dn : Nat → Bool) (outElems maxCycles : Nat) :
    ∀ fuel cycles received, received ≤ outElems + 3 →
      (outLoopGo ov ol dn outElems maxCycles fuel cycles received).2 ≤ outElems + 3 := by
  intro fuel
  induction fuel with
  | zero => intro cycles received h; simpa [outLoopGo] using h
  | succ f ih =>
    intro cycles received h
    by_cases hg : cycles < maxCycles ∧ received < outElems
    · simp only [outLoopGo, if_pos hg]
      have hrec : (outIter (ov cycles) (ol cycles) (dn cycles) cycles received).2.1 ≤
          outElems + 3 := by
        rw [outIter_received]
        by_cases hov : ov cycles = true
        · simp only [if_pos hov]; omega
        · simp only [if_neg hov]; omega
      by_cases hbr : (outIter (ov cycles) (ol cycles) (dn cycles) cycles received).2.2 = true
      · simp only [if_pos hbr]; exact hrec
      · simp only [if_neg hbr]; exact ih _ _ hrec
    · simpa [outLoopGo, hg] using h

/-- C9: each accepted output beat credits exactly `laneCount = 4` elements
(`out_received += 4`, line 211), a non-accepted cycle credits none, and at
loop exit `out_received ≤ out_elements + (laneCount - 1)`. -/
theorem output_accounting :
    (∀ ov ol dn cycles received, ov = true →
        (outIter ov ol dn cycles received).2.1 = received + 4) ∧
      (∀ ov ol dn cycles received, ov = false →
        (outIter ov ol dn cycles received).2.1 = received) ∧
      (∀ (ov ol dn : Nat → Bool) (fuel : Nat),
        (outLoopGo ov ol dn out_elements max_cycles fuel 0 0).2 ≤
          out_elements + (laneCount - 1)) := by
  refine ⟨?_, ?_, ?_⟩
  · intro ov ol dn cycles received hov
    rw [outIter_received, if_pos hov]
  · intro ov ol dn cycles received hov
    rw [outIter_received, if_neg (by simp [hov])]
  · intro ov ol dn fuel
    have h := outLoopGo_received_le ov ol dn out_elements max_cycles fuel 0 0
      (Nat.zero_le _)
    have hl : laneCount - 1 = 3 := by decide
    rw [hl]
    exact h

/-- C9 witness: one accepted beat credits 4; one idle cycle credits 0. -/
theorem output_accounting_witness :
    (outIter true false false 0 0).2.1 = 0 + 4 ∧
      (outIter false false false 5 8).2.1 = 8 :=
  ⟨output_accounting.1 true false false 0 0 rfl,
    output_accounting.2.1 false false false 5 8 rfl⟩

/-! ## Channel driver state (tb_top.cpp lines 126-155, 163-191)

`ChanState` is the harness-owned per-channel state: the driven `valid` and
`last` signals, the current beat contents and the elements-sent counter.
One loop iteration samples `ready` twice: once before the clock edge
(line 130 guard) and once after `eval` (line 151 clear). -/

structure ChanState where
  valid : Bool
  data : List Nat
  last : Bool
  sent : Nat
deriving DecidableEq

/-- Channel state after initialization (lines 59-69): valid and last low,
data words zero, nothing sent. -/
def initChan : ChanState := ⟨false, [0, 0, 0, 0], false, 0⟩

/-- Pre-edge half of a loop iteration (lines 130-144): when `ready` was
observed high, pack the next beat, assert `valid` and recompute `last`;
otherwise leave every driven signal unchanged. -/
def chanPre (elems : Nat → Nat) (N : Nat) (st : ChanState) (readyPre : Bool) :
    ChanState :=
  if readyPre then
    let r := packBeat elems N st.sent
    ⟨true, r.1, decide (N ≤ r.2), r.2⟩
  else st

/-- Post-edge half of a loop iteration (lines 151-153): when the beat was
accepted (`ready` and `valid` both high), deassert `valid`. -/
def chanPost (st : ChanState) (readyPost : Bool) : ChanState :=
  if readyPost && st.valid then { st with valid := false } else st

/-- One full iteration of a load loop body. -/
def chanIter (elems : Nat → Nat) (N : Nat) (st : ChanState)
    (readyPre readyPost : Bool) : ChanState :=
  chanPost (chanPre elems N st readyPre) readyPost

/-- A load loop run over a list of per-cycle `(readyPre, readyPost)`
samples.  Returns the `valid` value driven at each executed clock edge and
the final state; the loop guard `sent < N` (line 129) stops the run, after
which `valid` is cleared (line 155). -/
def loadRun (elems : Nat → Nat) (N : Nat) :
    List (Bool × Bool) → ChanState → List Bool × ChanState
  | [], st => ([], st)
  | r :: rs, st =>
    if st.sent < N then
      let st1 := chanPre elems N st r.1
      let st2 := chanPost st1 r.2
      let k := loadRun elems N rs st2
      (st1.valid :: k.1, k.2)
    else ([], { st with valid := false })

/-- A stalled cycle (ready low both before and after the edge) changes
nothing. -/
theorem chanIter_stall (elems : Nat → Nat) (N : Nat) (st : ChanState) :
    chanIter elems N st false false = st := by
  cases st with
  | mk v d l s => cases v <;> simp [chanIter, chanPre, chanPost]

/-- C5: once `valid` is asserted on a beat, `k` consecutive cycles with the
peer's `ready` deasserted leave the whole channel state — beat data, `last`
flag and `valid` — unchanged; the beat is not repacked. -/
theorem valid_holds_until_accepted (elems : Nat → Nat) (N : Nat)
    (st : ChanState) (k : Nat) (hv : st.valid = true) :
    (fun s => chanIter elems N s false false)^[k] st = st := by
  exact Function.iterate_fixed (chanIter_stall elems N st) k

/-- C5 witness: a held beat survives 5 stalled cycles untouched. -/
theorem valid_holds_until_accepted_witness :
    (⟨true, [1, 2, 3, 4], false, 64⟩ : ChanState).valid = true ∧
      (fun s => chanIter (fun _ => 0) 2304 s false false)^[5]
          ⟨true, [1, 2, 3, 4], false, 64⟩ =
        (⟨true, [1, 2, 3, 4], false, 64⟩ : ChanState) :=
  ⟨rfl, valid_holds_until_accepted (fun _ => 0) 2304 ⟨true, [1, 2, 3, 4], false, 64⟩ 5 rfl⟩

/-- C8: an empty stream (`N = 0`) runs zero loop iterations under any ready
schedule — no clock edge with `valid` asserted, no beats produced — and the
channel ends in its initial (Done) state. -/
theorem empty_stream (elems : Nat → Nat) (readys : List (Bool × Bool))
    (fuel : Nat) :
    loadRun elems 0 readys initChan = ([], initChan) ∧
      driveBeats elems 0 fuel 0 = [] := by
  constructor
  · cases readys with
    | nil => rfl
    | cons r rs => simp [loadRun, initChan]
  · exact driveBeats_nil elems 0 fuel 0 (le_refl 0)

/-- C10: the harness raises `valid` only in an iteration that observed
`ready` high before the edge (a cycle with `ready` low can only keep an
already-held `valid`), and after an accepted edge (`ready` and `valid` both
high) `valid` is always deasserted. -/
theorem valid_discipline :
    (∀ (elems : Nat → Nat) (N : Nat) (st : ChanState) (rPre rPost : Bool),
        (chanIter elems N st rPre rPost).valid = true → rPre = true ∨ st.valid = true) ∧
      (∀ (elems : Nat → Nat) (N : Nat) (st : ChanState) (rPre : Bool),
        (chanIter elems N st rPre true).valid = false) := by
  constructor
  · intro elems N st rPre rPost h
    cases rPre with
    | true => exact Or.inl rfl
    | false =>
      refine Or.inr ?_
      cases hv : st.valid with
      | true => rfl
      | false =>
        exfalso
        have : (chanIter elems N st false rPost).valid = false := by
          simp [chanIter, chanPre, chanPost, hv]
        rw [this] at h
        exact Bool.false_ne_true h
  · intro elems N st rPre
    cases rPre with
    | true => simp [chanIter, chanPre, chanPost]
    | false =>
      cases hv : st.valid with
      | true => simp [chanIter, chanPre, chanPost, hv]
      | false => simp [chanIter, chanPre, chanPost, hv]

/-- C10 witness: an accepted beat clears `valid`; a held beat on a stalled
cycle traces back to `ready` having been high or `valid` already held. -/
theorem valid_discipline_witness :
    ((chanIter (fun _ => 0) 64 initChan true true).valid = false) ∧
      (false = true ∨ (⟨true, [0, 0, 0, 0], false, 0⟩ : ChanState).valid = true) :=
  ⟨valid_discipline.2 (fun _ => 0) 64 initChan true,
    valid_discipline.1 (fun _ => 0) 64 ⟨true, [0, 0, 0, 0], false, 0⟩ false false (by decide)⟩

/-! ## Configuration handshake and the start pulse (tb_top.cpp lines 103-116)

`start` is initialized to 0 (line 58).  The harness clocks with
`cfg_valid = 1, start = 0` until the unit asserts `cfg_ready` (lines
103-108, `w` wait steps), then drives `cfg_valid = 0, start = 1` for a
single clock step (lines 110-115) and clears `start` (line 116); no later
statement assigns `start`, so every remaining step of the run (`rest`
steps) drives `(cfg_valid, start) = (0, 0)`. -/

/-- The `(cfgValid, start)` pair driven at each clock step from the start of
the configuration handshake to the end of the run. -/
def startPulseTrace (w rest : Nat) : List (Bool × Bool) :=
  List.replicate w (true, false) ++ [(false, true)] ++
    List.replicate rest (false, false)

theorem startPulseTrace_getD (w rest : Nat) :
    ∀ i, (startPulseTrace w rest).getD i (false, false) =
      if i < w then (true, false)
      else if i = w then (false, true)
      else (false, false) := by
  induction w with
  | zero =>
    intro i
    cases i with
    | zero => rfl
    | succ n =>
      simp only [startPulseTrace, List.replicate, List.nil_append, List.cons_append,
        List.getD_cons_succ]
      have : ¬ (n + 1 < 0) := by omega
      have h2 : ¬ (n + 1 = 0) := by omega
      simp only [if_neg this, if_neg h2]
      induction n generalizing rest with
      | zero => cases rest <;> rfl
      | succ m ihm =>
        cases rest with
        | zero => rfl
        | succ r =>
          simp only [List.replicate, List.getD_cons_succ]
          have := ihm r
          simpa using this
  | succ v ih =>
    intro i
    cases i with
    | zero =>
      simp [startPulseTrace, List.replicate]
    | succ n =>
      simp only [startPulseTrace, List.replicate, List.cons_append, List.getD_cons_succ]
      have h := ih n
      simp only [startPulseTrace] at h
      rw [h]
      by_cases h1 : n < v
      · rw [if_pos h1, if_pos (by omega)]
      · rw [if_neg h1]
        by_cases h2 : n = v
        · rw [if_pos h2, if_neg (by omega), if_pos (by omega)]
        · rw [if_neg h2, if_neg (by omega), if_neg (by omega)]

/-- C6: after the unit accepts the configuration, the harness drives
`cfgValid = 0` and `start = 1` for exactly one clock step (step `w`, right
after the `w` wait steps), and `start` is low on every other step of the
run: the trace contains exactly one step with `start` high. -/
theorem start_pulse_once (w rest : Nat) :
    ((startPulseTrace w rest).countP (fun p => p.2) = 1) ∧
      (∀ i, ((startPulseTrace w rest).getD i (false, false)).2 = true ↔ i = w) ∧
      ((startPulseTrace w rest).getD w (false, false) = (false, true)) := by
  refine ⟨?_, ?_, ?_⟩
  · simp only [startPulseTrace, List.countP_append, List.countP_cons]
    have h1 : List.countP (fun p => p.2) (List.replicate w ((true : Bool), (false : Bool))) = 0 := by
      induction w with
      | zero => rfl
      | succ v ih => simpa [List.replicate, List.countP_cons] using ih
    have h2 : List.countP (fun p => p.2) (List.replicate rest ((false : Bool), (false : Bool))) = 0 := by
      induction rest with
      | zero => rfl
      | succ v ih => simpa [List.replicate, List.countP_cons] using ih
    simp [h1, h2]
  · intro i
    rw [startPulseTrace_getD]
    by_cases h1 : i < w
    · simp [if_pos h1]; omega
    · rw [if_neg h1]
      by_cases h2 : i = w
      · simp [if_pos h2, h2]
      · simp [if_neg h2, h2]
  · rw [startPulseTrace_getD]
    simp

/-! ## Run-outcome classification (tb_top.cpp lines 227-232, 242)

`RunOutcome` is the spec's §3 terminal classification.  After the output
loop exits, the code reads `error_code` and branches on it alone — the
"ERROR" report iff the code is non-zero, the "No error" report otherwise —
and `main` always returns 0. -/

inductive RunOutcome where
  | completed : RunOutcome
  | timedOut : RunOutcome
  | unitReportedError : Nat → RunOutcome
deriving DecidableEq

/-- The classification the code actually performs (lines 228-232): non-zero
`error_code` is reported as a unit error; otherwise the run is reported as
error-free, with no separate timed-out report. -/
def finalReport (errorCode : Nat) : RunOutcome :=
  if errorCode ≠ 0 then RunOutcome.unitReportedError errorCode
  else RunOutcome.completed

/-- `main` returns 0 unconditionally (line 242). -/
def exitStatus : Nat := 0

/-- Modelled from the spec: the §4.4 classification rule, which the code
does not implement — "non-zero → UnitReportedError(code); exhausted budget
without reaching the target → TimedOut; otherwise → Completed". -/
def specClassify (errorCode cycles received : Nat) : RunOutcome :=
  if errorCode ≠ 0 then RunOutcome.unitReportedError errorCode
  else if max_cycles ≤ cycles ∧ received < out_elements then RunOutcome.timedOut
  else RunOutcome.completed

/-- C7: the claim fails on the code.  A run that exhausts the budget with
the target unreached and `error_code = 0` — exactly the exit state the
silent-unit run reaches — is classified `TimedOut` by the claim's rule but
reported as error-free (`Completed`) by the code, which branches on the
error code alone. -/
theorem outcome_classification_claim_false :
    finalReport 0 ≠ specClassify 0 100000 0 ∧
      outLoopGo (fun _ => false) (fun _ => false) (fun _ => false)
        out_elements max_cycles max_cycles 0 0 = (100000, 0) := by
  constructor
  · decide
  · exact outLoopGo_silent out_elements max_cycles max_cycles 0 0
      (by omega) (Nat.zero_le _) (by decide)

/-- C7 (amended): after the output loop exits, the harness classifies the
run by the error code alone — non-zero yields `UnitReportedError(code)`,
zero yields the error-free (`Completed`) report even when the budget was
exhausted — the outcome is data, and the process exits with status 0. -/
theorem outcome_classification (errorCode : Nat) :
    (errorCode ≠ 0 → finalReport errorCode = RunOutcome.unitReportedError errorCode) ∧
      (errorCode = 0 → finalReport errorCode = RunOutcome.completed) ∧
      exitStatus = 0 := by
  refine ⟨?_, ?_, rfl⟩
  · intro h; simp [finalReport, h]
  · intro h; simp [finalReport, h]

/-- C7 witness: a non-zero error code is reported as a unit error; a zero
error code as error-free. -/
theorem outcome_classification_witness :
    finalReport 7 = RunOutcome.unitReportedError 7 ∧
      finalReport 0 = RunOutcome.completed :=
  ⟨(outcome_classification 7).1 (by decide), (outcome_classification 0).2.1 rfl⟩

end Conv3x3TB
